import Mathlib

/-!
Verification development for the composition and execution engine described
in spec.md (a langchain-core style runnable engine).  The repository snapshot
under scrutiny ships only the package manifest and documentation notebooks;
the engine itself (nodes, sequence/parallel composition, batching, retry,
streaming fusion, event bus) is therefore modelled from the spec, definition
by definition, and the claims are settled against that model.
-/

namespace LCEngine

/-- Modelled from the spec: the universe of values flowing between nodes.
The engine is polymorphic over payloads; a small closed universe (strings,
naturals, lists, name-to-value mappings) is enough to express every claim,
in particular the name-to-output mapping produced by a parallel node. -/
inductive Val where
  | str : String → Val
  | nat : Nat → Val
  | list : List Val → Val
  | mapv : List (String × Val) → Val
deriving Repr

/-- Modelled from the spec: the error taxonomy of section 7.  A LeafError is
opaque and passed through; a CompositionError wraps a child failure with
positional (sequence) or branch-name (parallel) context; RecursionLimitError
and CancellationError are raised by the engine itself. -/
inductive Err where
  | leafErr : String → Err
  | compositionPos : Nat → Err → Err
  | compositionBranch : String → Err → Err
  | recursionLimit : Err
  | cancellation : Err
deriving Repr, DecidableEq

/-- Modelled from the spec: the phases an Event Bus listener can observe for
one invocation: start, chunk, end, error, cancelled. -/
inductive Phase where
  | start : Phase
  | chunk : Phase
  | endPh : Phase
  | errorPh : Phase
  | cancelledPh : Phase
deriving Repr, DecidableEq

/-- Modelled from the spec: the closed set of node kinds relevant to the
claims (leaf, passthrough, sequence, parallel). -/
inductive NKind where
  | leafK : NKind
  | passK : NKind
  | seqK : NKind
  | parK : NKind
deriving Repr, DecidableEq

/-- Modelled from the spec: one structured record delivered to Event Bus
listeners.  The recursion depth at emission stands in for the run
identifier: events emitted by an invocation itself carry the depth at which
that invocation ran, events of its children carry strictly larger depths. -/
structure Event where
  phase : Phase
  depth : Nat
  kind : NKind
deriving Repr, DecidableEq

/-- Modelled from the spec: the Composition Graph.  A node is a leaf
(wrapping an arbitrary fallible transformation), the identity passthrough,
a sequence of children threaded in order, or a parallel fan-out over named
branches.  The graph is an immutable tree: combinators build new nodes and
never mutate operands. -/
inductive Node where
  | leaf : (Val → Except Err Val) → Node
  | passthrough : Node
  | seq : List Node → Node
  | par : List (String × Node) → Node

/-- Kind tag of a node, used when emitting events. -/
def kindOf : Node → NKind
  | .leaf _ => .leafK
  | .passthrough => .passK
  | .seq _ => .seqK
  | .par _ => .parK

/-- Modelled from the spec: the fixed recursion-depth ceiling (a constant on
the order of 25); exceeding it fails the call rather than overflowing the
stack. -/
def recursionCeiling : Nat := 25

/-- Terminal phase for a result: end on success, error on failure. -/
def termPhase : Except Err Val → Phase
  | .ok _ => .endPh
  | .error _ => .errorPh

mutual

/-- Modelled from the spec: the Execution Engine single-call path.  The
engine observes the cancellation signal at node entry (terminal phase
cancelled when the signal was already set before the call began), enforces
the recursion ceiling, emits a start event before running the wrapped
behaviour and exactly one terminal event after, and dispatches on the node
kind.  Children of a sequence or parallel node run at depth one greater. -/
def invokeCore (n : Node) (d : Nat) (c : Bool) (x : Val) :
    Except Err Val × List Event :=
  if c then
    (.error .cancellation,
      [⟨Phase.start, d, kindOf n⟩, ⟨Phase.cancelledPh, d, kindOf n⟩])
  else if recursionCeiling ≤ d then
    (.error .recursionLimit,
      [⟨Phase.start, d, kindOf n⟩, ⟨Phase.errorPh, d, kindOf n⟩])
  else
    let r : Except Err Val × List Event :=
      match n with
      | .leaf f => (f x, [])
      | .passthrough => (.ok x, [])
      | .seq cs => seqCore cs 0 d c x
      | .par bs =>
        let p := parCore bs d c x
        (p.1.map Val.mapv, p.2)
    (r.1, ⟨Phase.start, d, kindOf n⟩ :: (r.2 ++ [⟨termPhase r.1, d, kindOf n⟩]))
/-- Modelled from the spec: sequence traversal.  The single input is
threaded through the children in order starting at position i; the first
child failure aborts the walk, no later child is invoked, and the failure is
wrapped with the failing child position. -/
def seqCore (cs : List Node) (i : Nat) (d : Nat) (c : Bool) (x : Val) :
    Except Err Val × List Event :=
  match cs with
  | [] => (.ok x, [])
  | n1 :: rest =>
    let r := invokeCore n1 (d + 1) c x
    match r.1 with
    | .error e => (.error (.compositionPos i e), r.2)
    | .ok v =>
      let r2 := seqCore rest (i + 1) d c v
      (r2.1, r.2 ++ r2.2)
/-- Modelled from the spec: parallel traversal in the synchronous mode,
deterministic in declared branch order.  Every branch receives the same
input; the first branch failure fails the call with the branch error
annotated with the branch name; on success the outputs are collected into a
name-to-output association in declared order. -/
def parCore (bs : List (String × Node)) (d : Nat) (c : Bool) (x : Val) :
    Except Err (List (String × Val)) × List Event :=
  match bs with
  | [] => (.ok [], [])
  | (name, n1) :: rest =>
    let r := invokeCore n1 (d + 1) c x
    match r.1 with
    | .error e => (.error (.compositionBranch name e), r.2)
    | .ok v =>
      let r2 := parCore rest d c x
      match r2.1 with
      | .error e2 => (.error e2, r.2 ++ r2.2)
      | .ok m => (.ok ((name, v) :: m), r.2 ++ r2.2)
end

/-- Modelled from the spec: the Execution Context threaded through every
invocation: listeners, tags, metadata keys, a concurrency budget, the
recursion depth counter and the cancellation signal.  Listener outcomes are
booleans (false models a listener that raises); the engine discards them. -/
structure Ctx where
  listeners : List (Event → Bool)
  tags : List String
  maxConcurrency : Nat
  depth : Nat
  cancelled : Bool

/-- Fresh top-level context: no listeners, depth 0, not cancelled. -/
def Ctx.fresh : Ctx :=
  { listeners := [], tags := [], maxConcurrency := 16, depth := 0,
    cancelled := false }

/-- Modelled from the spec: a single traced invocation.  Every emitted event
is delivered to every listener; what a listener returns (or whether it
raises) is discarded, so the run outcome never depends on it. -/
def invokeT (n : Node) (ctx : Ctx) (x : Val) : Except Err Val × List Event :=
  let core := invokeCore n ctx.depth ctx.cancelled x
  let _delivered := core.2.map (fun e => ctx.listeners.map (fun l => l e))
  core

/-- Modelled from the spec: the asynchronous single-call capability has
semantics identical to the synchronous one, differing only in suspension,
which a pure model does not observe. -/
def ainvokeT (n : Node) (ctx : Ctx) (x : Val) : Except Err Val × List Event :=
  invokeT n ctx x

/-- Result of a single invocation, events discarded. -/
def invoke (n : Node) (ctx : Ctx) (x : Val) : Except Err Val :=
  (invokeT n ctx x).1

/-- Steps view of a node: a sequence contributes its child list, any other
node contributes itself as a single step. -/
def steps : Node → List Node
  | .seq cs => cs
  | n => [n]

/-- Modelled from the spec: the sequence combinator (the pipe operator of
the composition interface).  Composing two nodes builds a new sequence node
over the concatenation of the operand step lists, so sequences compose flat
and neither operand is mutated. -/
def pipe (a b : Node) : Node :=
  .seq (steps a ++ steps b)

/-- Execution of the steps of a node as they run inside an enclosing
sequence whose own frame is at depth d: a sequence node contributes its
children, any other node contributes itself, and each step runs at depth
d plus one.  The result is the value the enclosing sequence threads
onward. -/
def stepsRun (n : Node) (d : Nat) (x : Val) : Except Err Val :=
  (seqCore (steps n) 0 d false x).1

/-- Modelled from the spec: an operand of the composition interface is
either a node or a plain mapping literal from branch names to nodes. -/
inductive Operand where
  | node : Node → Operand
  | mapping : List (String × Node) → Operand

/-- Modelled from the spec: coercion applied to each operand of the pipe
operator: a plain mapping literal is implicitly coerced into a parallel
node over its named branches; a node is left unchanged. -/
def coerceToRunnable : Operand → Node
  | .node n => n
  | .mapping m => .par m

/-- Pipe at the public composition interface: both operands are coerced and
the coerced nodes are composed in sequence. -/
def opPipe (a b : Operand) : Node :=
  pipe (coerceToRunnable a) (coerceToRunnable b)

/-- Modelled from the spec: the Batching Scheduler with fail-fast disabled.
It applies the single-call path to an ordered list of independent inputs
and returns results positionally aligned with those inputs, each a success
value or a captured failure; the concurrency cap bounds parallelism only
and never changes results of a deterministic graph. -/
def batch (n : Node) (ctx : Ctx) (inputs : List Val)
    (maxConcurrency : Option Nat) : List (Except Err Val) :=
  let _cap := maxConcurrency.getD ctx.maxConcurrency
  inputs.map (fun x => invoke n ctx x)

/-- Modelled from the spec: one batch under a cancellation signal.  The
signal is observed at item-entry boundaries: sig i is whether the signal is
already set at the moment item i would be started.  An item whose entry
sees the signal set is never started (no invocation, no events, a
CancellationError result); an item started before the signal was set runs
to completion. -/
def batchCancelItems (n : Node) (d : Nat) (inputs : List Val)
    (sig : Nat → Bool) : List (Except Err Val × List Event) :=
  (inputs.enum).map (fun p =>
    if sig p.1 then (.error .cancellation, []) else invokeCore n d false p.2)

/-- Modelled from the spec: the batch call itself.  A signal already set
before the batch begins raises a CancellationError without starting any
item; otherwise the positionally aligned item results are returned. -/
def batchRun (n : Node) (d : Nat) (inputs : List Val) (sig : Nat → Bool) :
    Except Err (List (Except Err Val × List Event)) :=
  if sig 0 then .error .cancellation
  else .ok (batchCancelItems n d inputs sig)

/-- Modelled from the spec: a Retry Policy: a maximum attempt count, a
predicate over the failure deciding whether to retry, and a backoff
schedule mapping attempt number to a wait duration (recorded for fidelity;
waiting does not change results in a pure model). -/
structure RetryPolicy where
  maxAttempts : Nat
  shouldRetry : Err → Bool
  backoff : Nat → Nat

/-- Modelled from the spec: the retry state machine of section 4.3 run from
a given attempt number.  The leaf behaviour is indexed by attempt number so
that a leaf failing a prefix of attempts and then succeeding is expressible.
Each attempt emits a start event and a terminal event; on failure, if the
attempt count is below the cap and the predicate accepts the error, the
same invocation is retried with the attempt counter incremented, else the
error is final. -/
def retryGo (p : RetryPolicy) (beh : Nat → Except Err Val) (attempt : Nat) :
    Except Err Val × List Event :=
  match beh attempt with
  | .ok v => (.ok v, [⟨Phase.start, 0, .leafK⟩, ⟨Phase.endPh, 0, .leafK⟩])
  | .error e =>
    if attempt < p.maxAttempts ∧ p.shouldRetry e = true then
      let r := retryGo p beh (attempt + 1)
      (r.1, ⟨Phase.start, 0, .leafK⟩ :: ⟨Phase.errorPh, 0, .leafK⟩ :: r.2)
    else (.error e, [⟨Phase.start, 0, .leafK⟩, ⟨Phase.errorPh, 0, .leafK⟩])
termination_by p.maxAttempts - attempt
decreasing_by
  simp_wf
  omega

/-- Number of invocation attempts observable on the Event Bus: one start
event is emitted per attempt. -/
def countStarts (evs : List Event) : Nat :=
  (evs.filter (fun e => e.phase == Phase.start)).length

/-- Modelled from the spec: a retrying node with max attempts k starts its
state machine at attempt 1. -/
def retryCall (p : RetryPolicy) (beh : Nat → Except Err Val) :
    Except Err Val × List Event :=
  retryGo p beh 1

/-- Modelled from the spec: the downstream endpoint of one streaming
sequence boundary: whether it declares support for incremental input
accumulation, its per-chunk transformation when it does, and its one-shot
invocation when it does not. -/
structure Downstream where
  supportsIncremental : Bool
  transformChunk : Val → Val
  invokeOnce : Val → Val

/-- Modelled from the spec: the Event Bus record for the chunk phase of a
streaming call carries the yielded chunk as payload. -/
structure ChunkEvent where
  phase : Phase
  payload : Val
deriving Repr

/-- Outcome of one fused streaming boundary: the output chunks in yield
order, the chunk-phase events in emission order, the number of one-shot
downstream invocations, and the values handed to those invocations. -/
structure FusionOut where
  chunks : List Val
  chunkEvents : List ChunkEvent
  downInvocations : Nat
  downInputs : List Val

/-- Modelled from the spec: the Streaming Fusion Adapter at one sequence
boundary.  When the downstream supports incremental input, every upstream
chunk is forwarded as produced and the downstream output chunks are yielded
in the same order, each with a chunk-phase event; otherwise all upstream
chunks are buffered, reduced into a single complete value with the chunk
combination operator, and the downstream is invoked exactly once on that
value, yielding one chunk. -/
def fuseBoundary (combine : Val → Val → Val) (zero : Val) (up : List Val)
    (dn : Downstream) : FusionOut :=
  if dn.supportsIncremental then
    { chunks := up.map dn.transformChunk,
      chunkEvents :=
        (up.map dn.transformChunk).map (fun v => ⟨Phase.chunk, v⟩),
      downInvocations := 0,
      downInputs := [] }
  else
    let whole := up.foldl combine zero
    { chunks := [dn.invokeOnce whole],
      chunkEvents := [⟨Phase.chunk, dn.invokeOnce whole⟩],
      downInvocations := 1,
      downInputs := [whole] }

/-- Concrete leaf behaviour used by witnesses: increments a natural payload
and rejects anything else. -/
def natIncr : Val → Except Err Val := fun v =>
  match v with
  | .nat k => .ok (.nat (k + 1))
  | _ => .error (.leafErr "expected a natural")

/-- Concrete leaf behaviour used by witnesses: always fails. -/
def alwaysBoom : Val → Except Err Val := fun _ => .error (.leafErr "boom")

end LCEngine

namespace TimeWeighted

/-- Modelled from the spec: one record held by the time-weighted retriever:
an identifier, the hour at which it was created and the hour at which it
was last accessed through the retriever. -/
structure MemDoc where
  docId : Nat
  createdAt : Nat
  lastAccessed : Nat
deriving Repr, DecidableEq

/-- Modelled from the spec: the ranking score of a candidate document is
the semantic similarity plus the recency term (1 - decay rate) raised to
the hours passed, where hours passed is measured from the moment the
document was last accessed through the retriever, not from its creation. -/
def score (simf : Nat → ℚ) (decayRate : ℚ) (now : Nat) (d : MemDoc) : ℚ :=
  simf d.docId + (1 - decayRate) ^ (now - d.lastAccessed)

/-- Modelled from the spec: ranking of the candidate documents, highest
score first; the comparison-based sort is stable, so ties keep buffer
order. -/
def rankDocs (simf : Nat → ℚ) (decayRate : ℚ) (now : Nat)
    (docs : List MemDoc) : List MemDoc :=
  docs.mergeSort (fun a b => score simf decayRate now b ≤ score simf decayRate now a)

/-- Ranking of the same documents by pure vector similarity alone. -/
def rankBySim (simf : Nat → ℚ) (docs : List MemDoc) : List MemDoc :=
  docs.mergeSort (fun a b => simf b.docId ≤ simf a.docId)

/-- Modelled from the spec: one retrieval: the top k documents by score are
returned, and every returned document has its last-accessed hour refreshed
to the current hour in the retriever state. -/
def retrieve (simf : Nat → ℚ) (decayRate : ℚ) (now : Nat) (k : Nat)
    (docs : List MemDoc) : List MemDoc × List MemDoc :=
  let ranked := (rankDocs simf decayRate now docs).take k
  (ranked,
    docs.map (fun d =>
      if ranked.any (fun r => r.docId == d.docId) then
        { d with lastAccessed := now }
      else d))

end TimeWeighted

namespace LCEngine

lemma invokeCore_leaf (f : Val → Except Err Val) (d : Nat) (x : Val)
    (hd : d < recursionCeiling) :
    invokeCore (.leaf f) d false x =
      (f x, [⟨Phase.start, d, .leafK⟩, ⟨termPhase (f x), d, .leafK⟩]) := by
  rw [invokeCore]
  simp [Nat.not_le.mpr hd, kindOf]

lemma invokeCore_pass (d : Nat) (x : Val) (hd : d < recursionCeiling) :
    invokeCore .passthrough d false x =
      (.ok x, [⟨Phase.start, d, .passK⟩, ⟨Phase.endPh, d, .passK⟩]) := by
  rw [invokeCore]
  simp [Nat.not_le.mpr hd, termPhase, kindOf]

lemma invokeCore_seq (cs : List Node) (d : Nat) (x : Val)
    (hd : d < recursionCeiling) :
    invokeCore (.seq cs) d false x =
      ((seqCore cs 0 d false x).1,
        ⟨Phase.start, d, .seqK⟩ ::
          ((seqCore cs 0 d false x).2 ++
            [⟨termPhase (seqCore cs 0 d false x).1, d, .seqK⟩])) := by
  rw [invokeCore]
  simp [Nat.not_le.mpr hd, kindOf]

lemma invokeCore_par (bs : List (String × Node)) (d : Nat) (x : Val)
    (hd : d < recursionCeiling) :
    invokeCore (.par bs) d false x =
      ((parCore bs d false x).1.map Val.mapv,
        ⟨Phase.start, d, .parK⟩ ::
          ((parCore bs d false x).2 ++
            [⟨termPhase ((parCore bs d false x).1.map Val.mapv), d,
              .parK⟩])) := by
  rw [invokeCore]
  simp [Nat.not_le.mpr hd, kindOf]

lemma seqCore_nil (i d : Nat) (c : Bool) (x : Val) :
    seqCore [] i d c x = (.ok x, []) := rfl

lemma seqCore_cons (n1 : Node) (rest : List Node) (i d : Nat) (c : Bool)
    (x : Val) :
    seqCore (n1 :: rest) i d c x =
      match (invokeCore n1 (d + 1) c x).1 with
      | .error e => (.error (.compositionPos i e), (invokeCore n1 (d + 1) c x).2)
      | .ok v =>
        ((seqCore rest (i + 1) d c v).1,
          (invokeCore n1 (d + 1) c x).2 ++ (seqCore rest (i + 1) d c v).2) := by
  rw [seqCore]

lemma seqCore_cons_error (n1 : Node) (rest : List Node) (i d : Nat)
    (c : Bool) (x : Val) (e : Err)
    (hr : (invokeCore n1 (d + 1) c x).1 = .error e) :
    seqCore (n1 :: rest) i d c x =
      (.error (.compositionPos i e), (invokeCore n1 (d + 1) c x).2) := by
  rw [seqCore_cons, hr]

lemma seqCore_cons_ok (n1 : Node) (rest : List Node) (i d : Nat) (c : Bool)
    (x v : Val) (hr : (invokeCore n1 (d + 1) c x).1 = .ok v) :
    seqCore (n1 :: rest) i d c x =
      ((seqCore rest (i + 1) d c v).1,
        (invokeCore n1 (d + 1) c x).2 ++ (seqCore rest (i + 1) d c v).2) := by
  rw [seqCore_cons, hr]

lemma seqCore_append_ok (l1 l2 : List Node) (i d : Nat) (c : Bool)
    (x v : Val) (evs : List Event) (h : seqCore l1 i d c x = (.ok v, evs)) :
    seqCore (l1 ++ l2) i d c x =
      ((seqCore l2 (i + l1.length) d c v).1,
        evs ++ (seqCore l2 (i + l1.length) d c v).2) := by
  induction l1 generalizing i x evs with
  | nil =>
    rw [seqCore_nil] at h
    injection h with h1 h2
    injection h1 with h1
    subst h1
    subst h2
    simp
  | cons n1 rest ih =>
    rcases hr : (invokeCore n1 (d + 1) c x).1 with e | w
    · rw [seqCore_cons_error n1 rest i d c x e hr] at h
      exact absurd (congrArg Prod.fst h) (by simp)
    · rw [seqCore_cons_ok n1 rest i d c x w hr] at h
      have h1 : (seqCore rest (i + 1) d c w).1 = .ok v :=
        congrArg Prod.fst h
      have h2 : evs =
          (invokeCore n1 (d + 1) c x).2 ++ (seqCore rest (i + 1) d c w).2 :=
        (congrArg Prod.snd h).symm
      have hrest : seqCore rest (i + 1) d c w =
          (.ok v, (seqCore rest (i + 1) d c w).2) := by
        rw [← h1]
      have hstep := ih (i + 1) w (seqCore rest (i + 1) d c w).2 hrest
      show seqCore (n1 :: (rest ++ l2)) i d c x = _
      rw [seqCore_cons_ok n1 (rest ++ l2) i d c x w hr, hstep, h2]
      have hlen : i + 1 + rest.length = i + (n1 :: rest).length := by
        simp only [List.length_cons]
        omega
      rw [hlen]
      simp

lemma seqCore_append_error (l1 l2 : List Node) (i d : Nat) (c : Bool)
    (x : Val) (e : Err) (evs : List Event)
    (h : seqCore l1 i d c x = (.error e, evs)) :
    seqCore (l1 ++ l2) i d c x = (.error e, evs) := by
  induction l1 generalizing i x evs with
  | nil =>
    rw [seqCore_nil] at h
    exact absurd (congrArg Prod.fst h) (by simp)
  | cons n1 rest ih =>
    rcases hr : (invokeCore n1 (d + 1) c x).1 with e1 | w
    · rw [seqCore_cons_error n1 rest i d c x e1 hr] at h
      show seqCore (n1 :: (rest ++ l2)) i d c x = _
      rw [seqCore_cons_error n1 (rest ++ l2) i d c x e1 hr]
      exact h
    · rw [seqCore_cons_ok n1 rest i d c x w hr] at h
      have h1 : (seqCore rest (i + 1) d c w).1 = .error e :=
        congrArg Prod.fst h
      have h2 : evs =
          (invokeCore n1 (d + 1) c x).2 ++ (seqCore rest (i + 1) d c w).2 :=
        (congrArg Prod.snd h).symm
      have hrest : seqCore rest (i + 1) d c w =
          (.error e, (seqCore rest (i + 1) d c w).2) := by
        rw [← h1]
      have hstep := ih (i + 1) w (seqCore rest (i + 1) d c w).2 hrest
      show seqCore (n1 :: (rest ++ l2)) i d c x = _
      rw [seqCore_cons_ok n1 (rest ++ l2) i d c x w hr, hstep, h2]

lemma seqCore_fst_ok_irrel (l : List Node) (i j d : Nat) (c : Bool)
    (x v : Val) (h : (seqCore l i d c x).1 = .ok v) :
    seqCore l j d c x = (.ok v, (seqCore l i d c x).2) := by
  induction l generalizing i j x with
  | nil =>
    rw [seqCore_nil] at h ⊢
    simp at h
    subst h
    simp [seqCore_nil]
  | cons n1 rest ih =>
    rcases hr : (invokeCore n1 (d + 1) c x).1 with e | w
    · rw [seqCore_cons_error n1 rest i d c x e hr] at h
      simp at h
    · rw [seqCore_cons_ok n1 rest i d c x w hr] at h
      have h1 : (seqCore rest (i + 1) d c w).1 = .ok v := h
      rw [seqCore_cons_ok n1 rest j d c x w hr,
          seqCore_cons_ok n1 rest i d c x w hr]
      have hstep := ih (i + 1) (j + 1) w h1
      rw [hstep]

end LCEngine

namespace LCEngine

lemma pair_of_fst (p : Except Err Val × List Event) (v : Except Err Val)
    (h : p.1 = v) : p = (v, p.2) := by
  rw [← h]

/-- C1: for every composition graph (the model is deterministic by
construction), every ordered list of independent inputs and every
concurrency cap, position i of the batch output is exactly the single-call
result on input i. -/
theorem batch_matches_invoke (n : Node) (ctx : Ctx) (inputs : List Val)
    (cap : Option Nat) (i : Nat) (h : i < inputs.length) :
    (batch n ctx inputs cap)[i]? = some (invoke n ctx inputs[i]) := by
  simp [batch, List.getElem?_map, List.getElem?_eq_getElem h]

theorem batch_matches_invoke_witness :
    0 < [Val.nat 3].length ∧
      (batch .passthrough Ctx.fresh [Val.nat 3] none)[0]? =
        some (invoke .passthrough Ctx.fresh (Val.nat 3)) :=
  ⟨by decide,
    batch_matches_invoke .passthrough Ctx.fresh [Val.nat 3] none 0
      (by decide)⟩

/-- C2: sequence composition is associative: for all nodes A, B, C and any
input accepted by A (its steps succeed, then the steps of B and C succeed
on the threaded values), both groupings are the same node, and invoking
either yields exactly the value produced by C applied to B applied to the
A-output. -/
theorem seq_composition_assoc (A B Cn : Node) (ctx : Ctx) (x a b c : Val)
    (hc0 : ctx.cancelled = false) (hd : ctx.depth < recursionCeiling)
    (hA : stepsRun A ctx.depth x = .ok a)
    (hB : stepsRun B ctx.depth a = .ok b)
    (hC : stepsRun Cn ctx.depth b = .ok c) :
    pipe (pipe A B) Cn = pipe A (pipe B Cn) ∧
    invoke (pipe (pipe A B) Cn) ctx x = .ok c ∧
    invoke (pipe A (pipe B Cn)) ctx x = .ok c := by
  have hassoc : pipe (pipe A B) Cn = pipe A (pipe B Cn) := by
    simp [pipe, steps, List.append_assoc]
  have hr : pipe A (pipe B Cn) = .seq (steps A ++ (steps B ++ steps Cn)) := by
    simp [pipe, steps]
  unfold stepsRun at hA hB hC
  have key : invoke (.seq (steps A ++ (steps B ++ steps Cn))) ctx x = .ok c := by
    show (invokeCore (.seq (steps A ++ (steps B ++ steps Cn)))
      ctx.depth ctx.cancelled x).1 = .ok c
    rw [hc0, invokeCore_seq _ _ _ hd]
    dsimp only
    rw [seqCore_append_ok (steps A) (steps B ++ steps Cn) 0 ctx.depth false
      x a _ (pair_of_fst _ _ hA)]
    dsimp only
    rw [seqCore_append_ok (steps B) (steps Cn) (0 + (steps A).length)
      ctx.depth false a b _
      (seqCore_fst_ok_irrel (steps B) 0 (0 + (steps A).length) ctx.depth
        false a b hB)]
    dsimp only
    rw [seqCore_fst_ok_irrel (steps Cn) 0 (0 + (steps A).length + (steps B).length)
      ctx.depth false b c hC]
  refine ⟨hassoc, ?_, ?_⟩
  · rw [hassoc, hr]
    exact key
  · rw [hr]
    exact key

theorem seq_composition_assoc_witness :
    Ctx.fresh.cancelled = false ∧
    Ctx.fresh.depth < recursionCeiling ∧
    stepsRun (.leaf natIncr) Ctx.fresh.depth (Val.nat 0) = .ok (Val.nat 1) ∧
    (pipe (pipe (.leaf natIncr) (.leaf natIncr)) (.leaf natIncr) =
        pipe (.leaf natIncr) (pipe (.leaf natIncr) (.leaf natIncr)) ∧
      invoke (pipe (pipe (.leaf natIncr) (.leaf natIncr)) (.leaf natIncr))
          Ctx.fresh (Val.nat 0) = .ok (Val.nat 3) ∧
      invoke (pipe (.leaf natIncr) (pipe (.leaf natIncr) (.leaf natIncr)))
          Ctx.fresh (Val.nat 0) = .ok (Val.nat 3)) :=
  ⟨rfl, by decide, rfl,
    seq_composition_assoc (.leaf natIncr) (.leaf natIncr) (.leaf natIncr)
      Ctx.fresh (Val.nat 0) (Val.nat 1) (Val.nat 2) (Val.nat 3)
      rfl (by decide) rfl rfl rfl⟩

end LCEngine

namespace LCEngine

/-- C3: a parallel node over branches a and b returns the mapping from each
branch name to that branch output on the shared input; if branch b fails,
the whole call fails with an error naming branch b. -/
theorem parallel_branches (f g : Val → Except Err Val) (ctx : Ctx) (x u : Val)
    (hc0 : ctx.cancelled = false) (hd : ctx.depth + 1 < recursionCeiling)
    (hf : f x = .ok u) :
    (∀ v, g x = .ok v →
      invoke (.par [("a", .leaf f), ("b", .leaf g)]) ctx x =
        .ok (.mapv [("a", u), ("b", v)])) ∧
    (∀ e, g x = .error e →
      invoke (.par [("a", .leaf f), ("b", .leaf g)]) ctx x =
        .error (.compositionBranch "b" e)) := by
  have hdl : ctx.depth < recursionCeiling := by omega
  constructor
  · intro v hv
    show (invokeCore (.par [("a", .leaf f), ("b", .leaf g)])
      ctx.depth ctx.cancelled x).1 = _
    rw [hc0, invokeCore_par _ _ _ hdl]
    dsimp only
    rw [parCore, invokeCore_leaf f _ _ hd, parCore,
      invokeCore_leaf g _ _ hd, parCore]
    simp [hf, hv, Except.map]
  · intro e he
    show (invokeCore (.par [("a", .leaf f), ("b", .leaf g)])
      ctx.depth ctx.cancelled x).1 = _
    rw [hc0, invokeCore_par _ _ _ hdl]
    dsimp only
    rw [parCore, invokeCore_leaf f _ _ hd, parCore,
      invokeCore_leaf g _ _ hd, parCore]
    simp [hf, he, Except.map]

theorem parallel_branches_witness :
    Ctx.fresh.cancelled = false ∧
    Ctx.fresh.depth + 1 < recursionCeiling ∧
    natIncr (Val.nat 4) = .ok (Val.nat 5) ∧
    alwaysBoom (Val.nat 4) = .error (.leafErr "boom") ∧
    invoke (.par [("a", .leaf natIncr), ("b", .leaf natIncr)]) Ctx.fresh
        (Val.nat 4) = .ok (.mapv [("a", Val.nat 5), ("b", Val.nat 5)]) ∧
    invoke (.par [("a", .leaf natIncr), ("b", .leaf alwaysBoom)]) Ctx.fresh
        (Val.nat 4) = .error (.compositionBranch "b" (.leafErr "boom")) :=
  ⟨rfl, by decide, rfl, rfl,
    (parallel_branches natIncr natIncr Ctx.fresh (Val.nat 4) (Val.nat 5)
      rfl (by decide) rfl).1 (Val.nat 5) rfl,
    (parallel_branches natIncr alwaysBoom Ctx.fresh (Val.nat 4) (Val.nat 5)
      rfl (by decide) rfl).2 (.leafErr "boom") rfl⟩

end LCEngine

namespace LCEngine

/-- C4: for a sequence node, invoke and ainvoke thread the single input
through each child in declared order; on the first child failure the
sequence aborts, the remaining children are never invoked (the whole traced
run equals the run of the sequence truncated after the failing child), and
the surfaced error wraps the child error with the failing child position. -/
theorem seq_first_failure_aborts (l1 l2 : List Node) (cn : Node) (ctx : Ctx)
    (x v : Val) (e : Err) (evs1 : List Event)
    (hc0 : ctx.cancelled = false) (hd : ctx.depth < recursionCeiling)
    (hpre : seqCore l1 0 ctx.depth false x = (.ok v, evs1))
    (hfail : (invokeCore cn (ctx.depth + 1) false v).1 = .error e) :
    invokeT (.seq (l1 ++ cn :: l2)) ctx x = invokeT (.seq (l1 ++ [cn])) ctx x ∧
    ainvokeT (.seq (l1 ++ cn :: l2)) ctx x = invokeT (.seq (l1 ++ [cn])) ctx x ∧
    invoke (.seq (l1 ++ cn :: l2)) ctx x =
      .error (.compositionPos l1.length e) := by
  have hcut : seqCore (l1 ++ cn :: l2) 0 ctx.depth false x =
      (.error (.compositionPos l1.length e),
        evs1 ++ (invokeCore cn (ctx.depth + 1) false v).2) := by
    rw [seqCore_append_ok l1 (cn :: l2) 0 ctx.depth false x v evs1 hpre,
      seqCore_cons_error cn l2 (0 + l1.length) ctx.depth false v e hfail]
    simp
  have hcut2 : seqCore (l1 ++ [cn]) 0 ctx.depth false x =
      (.error (.compositionPos l1.length e),
        evs1 ++ (invokeCore cn (ctx.depth + 1) false v).2) := by
    rw [seqCore_append_ok l1 [cn] 0 ctx.depth false x v evs1 hpre,
      seqCore_cons_error cn [] (0 + l1.length) ctx.depth false v e hfail]
    simp
  have hmain : invokeT (.seq (l1 ++ cn :: l2)) ctx x =
      invokeT (.seq (l1 ++ [cn])) ctx x := by
    unfold invokeT
    rw [hc0, invokeCore_seq _ _ _ hd, invokeCore_seq _ _ _ hd, hcut, hcut2]
  refine ⟨hmain, hmain, ?_⟩
  show (invokeT (.seq (l1 ++ cn :: l2)) ctx x).1 = _
  unfold invokeT
  rw [hc0, invokeCore_seq _ _ _ hd, hcut]

theorem seq_first_failure_aborts_witness :
    Ctx.fresh.cancelled = false ∧
    Ctx.fresh.depth < recursionCeiling ∧
    seqCore [Node.leaf natIncr] 0 Ctx.fresh.depth false (Val.nat 0) =
      (.ok (Val.nat 1),
        [⟨Phase.start, 1, .leafK⟩, ⟨Phase.endPh, 1, .leafK⟩]) ∧
    (invokeCore (.leaf alwaysBoom) (Ctx.fresh.depth + 1) false
        (Val.nat 1)).1 = .error (.leafErr "boom") ∧
    invoke (.seq ([Node.leaf natIncr] ++ Node.leaf alwaysBoom ::
        [Node.leaf natIncr])) Ctx.fresh (Val.nat 0) =
      .error (.compositionPos 1 (.leafErr "boom")) :=
  ⟨rfl, by decide, rfl, rfl,
    (seq_first_failure_aborts [Node.leaf natIncr] [Node.leaf natIncr]
      (.leaf alwaysBoom) Ctx.fresh (Val.nat 0) (Val.nat 1)
      (.leafErr "boom") _ rfl (by decide) rfl rfl).2.2⟩

/-- C9: at the public composition interface a plain mapping literal used as
an operand of the pipe operator is implicitly coerced into a parallel node,
and the resulting sequence feeds the name-to-output mapping of the branches
into the next node. -/
theorem mapping_operand_coerced (m : List (String × Node)) (p : Node)
    (ctx : Ctx) (x : Val) (assoc : List (String × Val)) (out : Val)
    (hc0 : ctx.cancelled = false) (hd : ctx.depth + 1 < recursionCeiling)
    (hpar : (parCore m (ctx.depth + 1) false x).1 = .ok assoc)
    (hp : stepsRun p ctx.depth (Val.mapv assoc) = .ok out) :
    coerceToRunnable (.mapping m) = .par m ∧
    opPipe (.mapping m) (.node p) = .seq (.par m :: steps p) ∧
    invoke (opPipe (.mapping m) (.node p)) ctx x = .ok out := by
  have hdl : ctx.depth < recursionCeiling := by omega
  have hshape : opPipe (.mapping m) (.node p) = .seq (.par m :: steps p) := by
    simp [opPipe, coerceToRunnable, pipe, steps]
  refine ⟨rfl, hshape, ?_⟩
  rw [hshape]
  show (invokeCore (.seq (.par m :: steps p)) ctx.depth ctx.cancelled x).1 = _
  rw [hc0, invokeCore_seq _ _ _ hdl]
  dsimp only
  have hbranch : (invokeCore (.par m) (ctx.depth + 1) false x).1 =
      .ok (Val.mapv assoc) := by
    rw [invokeCore_par _ _ _ hd]
    dsimp only
    rw [hpar]
    rfl
  rw [seqCore_cons_ok (.par m) (steps p) 0 ctx.depth false x
    (Val.mapv assoc) hbranch]
  dsimp only
  unfold stepsRun at hp
  rw [seqCore_fst_ok_irrel (steps p) 0 (0 + 1) ctx.depth false
    (Val.mapv assoc) out hp]

theorem mapping_operand_coerced_witness :
    Ctx.fresh.cancelled = false ∧
    Ctx.fresh.depth + 1 < recursionCeiling ∧
    (parCore [("context", Node.leaf natIncr), ("question", Node.passthrough)]
        (Ctx.fresh.depth + 1) false (Val.nat 2)).1 =
      .ok [("context", Val.nat 3), ("question", Val.nat 2)] ∧
    stepsRun Node.passthrough Ctx.fresh.depth
        (Val.mapv [("context", Val.nat 3), ("question", Val.nat 2)]) =
      .ok (Val.mapv [("context", Val.nat 3), ("question", Val.nat 2)]) ∧
    invoke (opPipe
        (.mapping [("context", Node.leaf natIncr),
          ("question", Node.passthrough)])
        (.node Node.passthrough)) Ctx.fresh (Val.nat 2) =
      .ok (Val.mapv [("context", Val.nat 3), ("question", Val.nat 2)]) :=
  ⟨rfl, by decide, rfl, rfl,
    (mapping_operand_coerced
      [("context", Node.leaf natIncr), ("question", Node.passthrough)]
      Node.passthrough Ctx.fresh (Val.nat 2)
      [("context", Val.nat 3), ("question", Val.nat 2)]
      (Val.mapv [("context", Val.nat 3), ("question", Val.nat 2)])
      rfl (by decide) rfl rfl).2.2⟩

end LCEngine

namespace LCEngine

lemma countStarts_cons_start (d : Nat) (k : NKind) (rest : List Event) :
    countStarts (⟨Phase.start, d, k⟩ :: rest) = countStarts rest + 1 := by
  simp [countStarts, List.filter]

lemma countStarts_cons_other (ph : Phase) (d : Nat) (k : NKind)
    (rest : List Event) (h : ph ≠ Phase.start) :
    countStarts (⟨ph, d, k⟩ :: rest) = countStarts rest := by
  have hb : (ph == Phase.start) = false := beq_eq_false_iff_ne.mpr h
  simp [countStarts, List.filter, hb]

lemma retryGo_allfail (p : RetryPolicy) (beh : Nat → Except Err Val)
    (hfail : ∀ a, ∃ e, beh a = .error e ∧ p.shouldRetry e = true) :
    ∀ k a, a + k = p.maxAttempts →
      (∃ e2, (retryGo p beh a).1 = .error e2) ∧
        countStarts (retryGo p beh a).2 = k + 1 := by
  intro k
  induction k with
  | zero =>
    intro a ha
    rcases hfail a with ⟨e, he, hacc⟩
    have hcond : ¬(a < p.maxAttempts ∧ p.shouldRetry e = true) := by
      intro hcon
      omega
    rw [retryGo, he]
    dsimp only
    rw [if_neg hcond]
    refine ⟨⟨e, rfl⟩, ?_⟩
    rw [countStarts_cons_start, countStarts_cons_other _ _ _ _ (by decide)]
    rfl
  | succ k ih =>
    intro a ha
    rcases hfail a with ⟨e, he, hacc⟩
    have hcond : a < p.maxAttempts ∧ p.shouldRetry e = true :=
      ⟨by omega, hacc⟩
    rw [retryGo, he]
    dsimp only
    rw [if_pos hcond]
    dsimp only
    rcases ih (a + 1) (by omega) with ⟨⟨e2, he2⟩, hcount⟩
    refine ⟨⟨e2, he2⟩, ?_⟩
    rw [countStarts_cons_start, countStarts_cons_other _ _ _ _ (by decide),
      hcount]

lemma retryGo_eventually_ok (p : RetryPolicy) (beh : Nat → Except Err Val)
    (v : Val) (hsucc : beh p.maxAttempts = .ok v)
    (hpre : ∀ a, 1 ≤ a → a < p.maxAttempts →
      ∃ e, beh a = .error e ∧ p.shouldRetry e = true) :
    ∀ k a, a + k = p.maxAttempts → 1 ≤ a →
      (retryGo p beh a).1 = .ok v ∧
        countStarts (retryGo p beh a).2 = k + 1 := by
  intro k
  induction k with
  | zero =>
    intro a ha h1
    have haeq : a = p.maxAttempts := by omega
    subst haeq
    rw [retryGo, hsucc]
    refine ⟨rfl, ?_⟩
    rw [countStarts_cons_start, countStarts_cons_other _ _ _ _ (by decide)]
    rfl
  | succ k ih =>
    intro a ha h1
    rcases hpre a h1 (by omega) with ⟨e, he, hacc⟩
    have hcond : a < p.maxAttempts ∧ p.shouldRetry e = true :=
      ⟨by omega, hacc⟩
    rw [retryGo, he]
    dsimp only
    rw [if_pos hcond]
    dsimp only
    rcases ih (a + 1) (by omega) (by omega) with ⟨hok, hcount⟩
    refine ⟨hok, ?_⟩
    rw [countStarts_cons_start, countStarts_cons_other _ _ _ _ (by decide),
      hcount]

/-- C5: a retrying node with a cap of k attempts and an always-failing leaf
(whose failures the predicate accepts) performs exactly k attempts,
observable as k start events on the Event Bus, and finally fails; with a
leaf failing on the first k minus one attempts and succeeding on attempt k,
the call succeeds and exactly k attempts are observed. -/
theorem retry_attempt_count (p : RetryPolicy) (beh : Nat → Except Err Val)
    (hk : 1 ≤ p.maxAttempts) :
    ((∀ a, ∃ e, beh a = .error e ∧ p.shouldRetry e = true) →
      (∃ e, (retryCall p beh).1 = .error e) ∧
        countStarts (retryCall p beh).2 = p.maxAttempts) ∧
    (∀ v, (∀ a, 1 ≤ a → a < p.maxAttempts →
        ∃ e, beh a = .error e ∧ p.shouldRetry e = true) →
      beh p.maxAttempts = .ok v →
      (retryCall p beh).1 = .ok v ∧
        countStarts (retryCall p beh).2 = p.maxAttempts) := by
  constructor
  · intro hfail
    rcases retryGo_allfail p beh hfail (p.maxAttempts - 1) 1 (by omega) with
      ⟨hex, hcount⟩
    refine ⟨hex, ?_⟩
    unfold retryCall
    rw [hcount]
    omega
  · intro v hpre hsucc
    rcases retryGo_eventually_ok p beh v hsucc hpre (p.maxAttempts - 1) 1
      (by omega) (by omega) with ⟨hok, hcount⟩
    refine ⟨hok, ?_⟩
    unfold retryCall
    rw [hcount]
    omega

theorem retry_attempt_count_witness :
    1 ≤ (RetryPolicy.mk 3 (fun _ => true) (fun _ => 0)).maxAttempts ∧
    countStarts (retryCall (RetryPolicy.mk 3 (fun _ => true) (fun _ => 0))
        (fun _ => .error (.leafErr "down"))).2 = 3 ∧
    countStarts (retryCall (RetryPolicy.mk 3 (fun _ => true) (fun _ => 0))
        (fun a => if a < 3 then .error (.leafErr "down")
          else .ok (Val.nat 9))).2 = 3 ∧
    (retryCall (RetryPolicy.mk 3 (fun _ => true) (fun _ => 0))
        (fun a => if a < 3 then .error (.leafErr "down")
          else .ok (Val.nat 9))).1 = .ok (Val.nat 9) :=
  ⟨by decide,
    ((retry_attempt_count (RetryPolicy.mk 3 (fun _ => true) (fun _ => 0))
      (fun _ => .error (.leafErr "down")) (by decide)).1
      (fun a => ⟨.leafErr "down", rfl, rfl⟩)).2,
    ((retry_attempt_count (RetryPolicy.mk 3 (fun _ => true) (fun _ => 0))
      (fun a => if a < 3 then .error (.leafErr "down") else .ok (Val.nat 9))
      (by decide)).2 (Val.nat 9)
      (fun a h1 h3 => ⟨.leafErr "down", by
        have : a < 3 := h3
        simp [this], rfl⟩)
      (by simp)).2,
    ((retry_attempt_count (RetryPolicy.mk 3 (fun _ => true) (fun _ => 0))
      (fun a => if a < 3 then .error (.leafErr "down") else .ok (Val.nat 9))
      (by decide)).2 (Val.nat 9)
      (fun a h1 h3 => ⟨.leafErr "down", by
        have : a < 3 := h3
        simp [this], rfl⟩)
      (by simp)).1⟩

end LCEngine

namespace LCEngine

/-- C6: once the cancellation signal is set no new item invocation starts.
With a signal that turns on exactly at item index m: if the signal is set
before the batch begins (m = 0) the batch raises a CancellationError and no
item is ever run (zero leaf invocations, no events); otherwise the m items
entered before the signal ran to completion, and every later item is never
started: it contributes no events at all and carries a CancellationError
result. -/
theorem batch_cancellation (n : Node) (d : Nat) (inputs : List Val)
    (sig : Nat → Bool) (m : Nat) (hsig : ∀ i, sig i = true ↔ m ≤ i) :
    (m = 0 → batchRun n d inputs sig = .error .cancellation) ∧
    (0 < m →
      batchRun n d inputs sig = .ok (batchCancelItems n d inputs sig) ∧
      ∀ i x, inputs[i]? = some x →
        (i < m →
          (batchCancelItems n d inputs sig)[i]? =
            some (invokeCore n d false x)) ∧
        (m ≤ i →
          (batchCancelItems n d inputs sig)[i]? =
            some (.error .cancellation, []))) := by
  have hget : ∀ i x, inputs[i]? = some x →
      (batchCancelItems n d inputs sig)[i]? =
        some (if sig i then (.error .cancellation, [])
          else invokeCore n d false x) := by
    intro i x hx
    simp [batchCancelItems, List.getElem?_map, List.getElem?_enum, hx]
  constructor
  · intro hm0
    have h0 : sig 0 = true := (hsig 0).mpr (by omega)
    simp [batchRun, h0]
  · intro hmpos
    have h0 : sig 0 = false := by
      rcases hb : sig 0 with _ | _
      · rfl
      · have := (hsig 0).mp hb
        omega
    refine ⟨by simp [batchRun, h0], ?_⟩
    intro i x hx
    constructor
    · intro him
      have hfi : sig i = false := by
        rcases hb : sig i with _ | _
        · rfl
        · have := (hsig i).mp hb
          omega
      rw [hget i x hx, if_neg (by simp [hfi])]
    · intro him
      have hti : sig i = true := (hsig i).mpr him
      rw [hget i x hx, if_pos hti]

theorem batch_cancellation_witness :
    batchRun .passthrough 0 [Val.nat 1] (fun _ => true) =
      .error .cancellation ∧
    batchRun .passthrough 0 [Val.nat 1, Val.nat 2]
        (fun i => decide (1 ≤ i)) =
      .ok (batchCancelItems .passthrough 0 [Val.nat 1, Val.nat 2]
        (fun i => decide (1 ≤ i))) ∧
    (batchCancelItems .passthrough 0 [Val.nat 1, Val.nat 2]
        (fun i => decide (1 ≤ i)))[0]? =
      some (invokeCore .passthrough 0 false (Val.nat 1)) ∧
    (batchCancelItems .passthrough 0 [Val.nat 1, Val.nat 2]
        (fun i => decide (1 ≤ i)))[1]? =
      some (.error .cancellation, []) :=
  ⟨(batch_cancellation .passthrough 0 [Val.nat 1] (fun _ => true) 0
      (fun i => by simp)).1 rfl,
    ((batch_cancellation .passthrough 0 [Val.nat 1, Val.nat 2]
      (fun i => decide (1 ≤ i)) 1 (fun i => by simp)).2 (by decide)).1,
    (((batch_cancellation .passthrough 0 [Val.nat 1, Val.nat 2]
      (fun i => decide (1 ≤ i)) 1 (fun i => by simp)).2 (by decide)).2
      0 (Val.nat 1) rfl).1 (by decide),
    (((batch_cancellation .passthrough 0 [Val.nat 1, Val.nat 2]
      (fun i => decide (1 ≤ i)) 1 (fun i => by simp)).2 (by decide)).2
      1 (Val.nat 2) rfl).2 (by decide)⟩

/-- C7: streaming a sequence boundary whose upstream yields the chunks one,
two, three: with a pass-through downstream that supports incremental input
the output chunks are exactly those three in order, with chunk-phase events
carrying the same payloads in the same order; with a downstream that does
not support incremental input exactly one downstream invocation occurs, and
its input is the reduction of all three upstream chunks into one complete
value. -/
theorem streaming_fusion (combine : Val → Val → Val) (zero : Val)
    (dn : Downstream) :
    (fuseBoundary combine zero [Val.nat 1, Val.nat 2, Val.nat 3]
        (Downstream.mk true (fun v => v) (fun v => v))).chunks =
      [Val.nat 1, Val.nat 2, Val.nat 3] ∧
    (fuseBoundary combine zero [Val.nat 1, Val.nat 2, Val.nat 3]
        (Downstream.mk true (fun v => v) (fun v => v))).chunkEvents =
      [⟨Phase.chunk, Val.nat 1⟩, ⟨Phase.chunk, Val.nat 2⟩,
        ⟨Phase.chunk, Val.nat 3⟩] ∧
    (dn.supportsIncremental = false →
      (fuseBoundary combine zero [Val.nat 1, Val.nat 2, Val.nat 3]
          dn).downInvocations = 1 ∧
      (fuseBoundary combine zero [Val.nat 1, Val.nat 2, Val.nat 3]
          dn).downInputs =
        [combine (combine (combine zero (Val.nat 1)) (Val.nat 2))
          (Val.nat 3)] ∧
      (fuseBoundary combine zero [Val.nat 1, Val.nat 2, Val.nat 3]
          dn).chunks =
        [dn.invokeOnce
          (combine (combine (combine zero (Val.nat 1)) (Val.nat 2))
            (Val.nat 3))]) := by
  refine ⟨by simp [fuseBoundary], by simp [fuseBoundary], ?_⟩
  intro hni
  refine ⟨?_, ?_, ?_⟩ <;> simp [fuseBoundary, hni]

theorem streaming_fusion_witness :
    (Downstream.mk false (fun v => v) (fun v => v)).supportsIncremental =
      false ∧
    (fuseBoundary (fun _ b => b) (Val.nat 0)
        [Val.nat 1, Val.nat 2, Val.nat 3]
        (Downstream.mk false (fun v => v) (fun v => v))).downInvocations =
      1 :=
  ⟨rfl,
    ((streaming_fusion (fun _ b => b) (Val.nat 0)
      (Downstream.mk false (fun v => v) (fun v => v))).2.2 rfl).1⟩

end LCEngine

namespace LCEngine

lemma invokeCore_cancelled (n : Node) (d : Nat) (x : Val) :
    invokeCore n d true x =
      (.error .cancellation,
        [⟨Phase.start, d, kindOf n⟩, ⟨Phase.cancelledPh, d, kindOf n⟩]) := by
  rw [invokeCore.eq_def]
  simp

lemma invokeCore_limit (n : Node) (d : Nat) (c : Bool) (x : Val)
    (hle : recursionCeiling ≤ d) (hcf : c = false) :
    invokeCore n d c x =
      (.error .recursionLimit,
        [⟨Phase.start, d, kindOf n⟩, ⟨Phase.errorPh, d, kindOf n⟩]) := by
  subst hcf
  rw [invokeCore.eq_def]
  simp [hle]

lemma parCore_nil (d : Nat) (c : Bool) (x : Val) :
    parCore [] d c x = (.ok [], []) := rfl

lemma parCore_cons_error (name : String) (n1 : Node)
    (rest : List (String × Node)) (d : Nat) (c : Bool) (x : Val) (e : Err)
    (hr : (invokeCore n1 (d + 1) c x).1 = .error e) :
    parCore ((name, n1) :: rest) d c x =
      (.error (.compositionBranch name e), (invokeCore n1 (d + 1) c x).2) := by
  rw [parCore, hr]

lemma parCore_cons_ok (name : String) (n1 : Node)
    (rest : List (String × Node)) (d : Nat) (c : Bool) (x v : Val)
    (hr : (invokeCore n1 (d + 1) c x).1 = .ok v) :
    parCore ((name, n1) :: rest) d c x =
      (match (parCore rest d c x).1 with
        | .error e2 =>
          (.error e2, (invokeCore n1 (d + 1) c x).2 ++ (parCore rest d c x).2)
        | .ok mm =>
          (.ok ((name, v) :: mm),
            (invokeCore n1 (d + 1) c x).2 ++ (parCore rest d c x).2)) := by
  rw [parCore, hr]

lemma sizeOf_lt_of_mem_nodes {n1 : Node} {cs : List Node} (h : n1 ∈ cs) :
    sizeOf n1 < sizeOf cs := by
  induction cs with
  | nil => cases h
  | cons a l ih =>
    rcases List.mem_cons.mp h with h1 | h2
    · subst h1
      simp
      omega
    · have := ih h2
      simp
      omega

lemma sizeOf_lt_of_mem_branches {b : String × Node}
    {bs : List (String × Node)} (h : b ∈ bs) : sizeOf b.2 < sizeOf bs := by
  induction bs with
  | nil => cases h
  | cons a l ih =>
    rcases List.mem_cons.mp h with h1 | h2
    · subst h1
      rcases b with ⟨s, nd⟩
      simp
      omega
    · have := ih h2
      simp
      omega

lemma seqCore_events_depth (cs : List Node) (i d : Nat) (c : Bool) (x : Val)
    (IH : ∀ nn, nn ∈ cs → ∀ d2 c2 x2 e,
      e ∈ (invokeCore nn d2 c2 x2).2 → d2 ≤ e.depth) :
    ∀ e ∈ (seqCore cs i d c x).2, d + 1 ≤ e.depth := by
  induction cs generalizing i x with
  | nil =>
    intro e he
    rw [seqCore_nil] at he
    cases he
  | cons n1 rest ih =>
    intro e he
    rcases hr : (invokeCore n1 (d + 1) c x).1 with er | w
    · rw [seqCore_cons_error n1 rest i d c x er hr] at he
      exact IH n1 (by simp) (d + 1) c x e he
    · rw [seqCore_cons_ok n1 rest i d c x w hr] at he
      rcases List.mem_append.mp he with h1 | h2
      · exact IH n1 (by simp) (d + 1) c x e h1
      · exact ih (i + 1) w (fun nn hm => IH nn (List.mem_cons_of_mem _ hm)) e h2

lemma parCore_events_depth (bs : List (String × Node)) (d : Nat) (c : Bool)
    (x : Val)
    (IH : ∀ b, b ∈ bs → ∀ d2 c2 x2 e,
      e ∈ (invokeCore b.2 d2 c2 x2).2 → d2 ≤ e.depth) :
    ∀ e ∈ (parCore bs d c x).2, d + 1 ≤ e.depth := by
  induction bs generalizing x with
  | nil =>
    intro e he
    rw [parCore_nil] at he
    cases he
  | cons b rest ih =>
    rcases b with ⟨name, n1⟩
    intro e he
    rcases hr : (invokeCore n1 (d + 1) c x).1 with er | w
    · rw [parCore_cons_error name n1 rest d c x er hr] at he
      exact IH (name, n1) (by simp) (d + 1) c x e he
    · rw [parCore_cons_ok name n1 rest d c x w hr] at he
      have hrest := ih x (fun b2 hm => IH b2 (List.mem_cons_of_mem _ hm))
      rcases hp : (parCore rest d c x).1 with e2 | mm
      · rw [hp] at he
        dsimp only at he
        rcases List.mem_append.mp he with h1 | h2
        · exact IH (name, n1) (by simp) (d + 1) c x e h1
        · exact hrest e h2
      · rw [hp] at he
        dsimp only at he
        rcases List.mem_append.mp he with h1 | h2
        · exact IH (name, n1) (by simp) (d + 1) c x e h1
        · exact hrest e h2

lemma invokeCore_events_depth :
    ∀ (n : Node) (d : Nat) (c : Bool) (x : Val),
      ∀ e ∈ (invokeCore n d c x).2, d ≤ e.depth := by
  suffices H : ∀ (k : Nat) (n : Node), sizeOf n ≤ k → ∀ (d : Nat) (c : Bool)
      (x : Val), ∀ e ∈ (invokeCore n d c x).2, d ≤ e.depth by
    intro n d c x e he
    exact H (sizeOf n) n le_rfl d c x e he
  intro k
  induction k with
  | zero =>
    intro n hn
    exfalso
    cases n <;> simp at hn
  | succ k ih =>
    intro n hn d c x e he
    rcases c with _ | _
    · by_cases hle : recursionCeiling ≤ d
      · rw [invokeCore_limit n d false x hle rfl] at he
        simp at he
        rcases he with h1 | h1 <;> simp [h1]
      · have hd : d < recursionCeiling := by omega
        cases n with
        | leaf f =>
          rw [invokeCore_leaf f d x hd] at he
          simp at he
          rcases he with h1 | h1 <;> simp [h1]
        | passthrough =>
          rw [invokeCore_pass d x hd] at he
          simp at he
          rcases he with h1 | h1 <;> simp [h1]
        | seq cs =>
          rw [invokeCore_seq cs d x hd] at he
          simp only [List.mem_cons, List.mem_append, List.mem_singleton,
            List.not_mem_nil, or_false] at he
          rcases he with h1 | h1 | h1
          · simp [h1]
          · have hchild : ∀ nn, nn ∈ cs → ∀ d2 c2 x2 e2,
                e2 ∈ (invokeCore nn d2 c2 x2).2 → d2 ≤ e2.depth := by
              intro nn hm d2 c2 x2 e2 he2
              have hsz : sizeOf nn ≤ k := by
                have h1 := sizeOf_lt_of_mem_nodes hm
                have h2 : sizeOf (Node.seq cs) = 1 + sizeOf cs := by simp
                omega
              exact ih nn hsz d2 c2 x2 e2 he2
            have := seqCore_events_depth cs 0 d false x hchild e h1
            omega
          · simp [h1]
        | par bs =>
          rw [invokeCore_par bs d x hd] at he
          simp only [List.mem_cons, List.mem_append, List.mem_singleton,
            List.not_mem_nil, or_false] at he
          rcases he with h1 | h1 | h1
          · simp [h1]
          · have hchild : ∀ b, b ∈ bs → ∀ d2 c2 x2 e2,
                e2 ∈ (invokeCore b.2 d2 c2 x2).2 → d2 ≤ e2.depth := by
              intro b hm d2 c2 x2 e2 he2
              have hsz : sizeOf b.2 ≤ k := by
                have h1 := sizeOf_lt_of_mem_branches hm
                have h2 : sizeOf (Node.par bs) = 1 + sizeOf bs := by simp
                omega
              exact ih b.2 hsz d2 c2 x2 e2 he2
            have := parCore_events_depth bs d false x hchild e h1
            omega
          · simp [h1]
    · rw [invokeCore_cancelled n d x] at he
      simp at he
      rcases he with h1 | h1 <;> simp [h1]

/-- C8: for every invocation the engine emits a start event before the
wrapped behaviour runs and exactly one terminal event after: the whole
trace of a call is its start event, then the events of its children (all at
strictly greater depth, so the call itself contributes no other event),
then one terminal event whose phase is cancelled when the signal was set
before the call began, end on success and error on failure; and the run
(result and trace) is unchanged under any replacement of the listener list,
so a raising listener can never replace the node outcome. -/
theorem event_discipline (n : Node) (ctx : Ctx) (x : Val) :
    (∀ ls, invokeT n { ctx with listeners := ls } x = invokeT n ctx x) ∧
    (∃ body,
      (invokeT n ctx x).2 =
        ⟨Phase.start, ctx.depth, kindOf n⟩ :: body ++
          [⟨(if ctx.cancelled then Phase.cancelledPh
              else termPhase (invokeT n ctx x).1), ctx.depth, kindOf n⟩] ∧
      ∀ e ∈ body, ctx.depth < e.depth) ∧
    (ctx.cancelled = true → (invokeT n ctx x).1 = .error .cancellation) := by
  refine ⟨fun ls => rfl, ?_, ?_⟩
  · show ∃ body,
      (invokeCore n ctx.depth ctx.cancelled x).2 =
        ⟨Phase.start, ctx.depth, kindOf n⟩ :: body ++
          [⟨(if ctx.cancelled then Phase.cancelledPh
              else termPhase (invokeCore n ctx.depth ctx.cancelled x).1),
            ctx.depth, kindOf n⟩] ∧
      ∀ e ∈ body, ctx.depth < e.depth
    rcases hcb : ctx.cancelled with _ | _
    · by_cases hle : recursionCeiling ≤ ctx.depth
      · refine ⟨[], ?_, by simp⟩
        rw [invokeCore_limit n ctx.depth false x hle rfl]
        simp [termPhase]
      · have hd : ctx.depth < recursionCeiling := by omega
        cases n with
        | leaf f =>
          refine ⟨[], ?_, by simp⟩
          rw [invokeCore_leaf f ctx.depth x hd]
          simp [kindOf]
        | passthrough =>
          refine ⟨[], ?_, by simp⟩
          rw [invokeCore_pass ctx.depth x hd]
          simp [kindOf, termPhase]
        | seq cs =>
          refine ⟨(seqCore cs 0 ctx.depth false x).2, ?_, ?_⟩
          · rw [invokeCore_seq cs ctx.depth x hd]
            simp [kindOf]
          · intro e he
            have := seqCore_events_depth cs 0 ctx.depth false x
              (fun nn _ d2 c2 x2 e2 he2 =>
                invokeCore_events_depth nn d2 c2 x2 e2 he2) e he
            omega
        | par bs =>
          refine ⟨(parCore bs ctx.depth false x).2, ?_, ?_⟩
          · rw [invokeCore_par bs ctx.depth x hd]
            simp [kindOf]
          · intro e he
            have := parCore_events_depth bs ctx.depth false x
              (fun b _ d2 c2 x2 e2 he2 =>
                invokeCore_events_depth b.2 d2 c2 x2 e2 he2) e he
            omega
    · refine ⟨[], ?_, by simp⟩
      rw [invokeCore_cancelled n ctx.depth x]
      simp
  · intro hc
    show (invokeCore n ctx.depth ctx.cancelled x).1 = _
    rw [hc, invokeCore_cancelled n ctx.depth x]

theorem event_discipline_witness :
    invokeT (.leaf natIncr)
        { Ctx.fresh with listeners := [fun _ => false] } (Val.nat 0) =
      invokeT (.leaf natIncr) Ctx.fresh (Val.nat 0) ∧
    (∃ body,
      (invokeT (.leaf natIncr) Ctx.fresh (Val.nat 0)).2 =
        ⟨Phase.start, Ctx.fresh.depth, kindOf (.leaf natIncr)⟩ :: body ++
          [⟨(if Ctx.fresh.cancelled then Phase.cancelledPh
              else termPhase
                (invokeT (.leaf natIncr) Ctx.fresh (Val.nat 0)).1),
            Ctx.fresh.depth, kindOf (.leaf natIncr)⟩] ∧
      ∀ e ∈ body, Ctx.fresh.depth < e.depth) :=
  ⟨(event_discipline (.leaf natIncr) Ctx.fresh (Val.nat 0)).1
      [fun _ => false],
    (event_discipline (.leaf natIncr) Ctx.fresh (Val.nat 0)).2.1⟩

end LCEngine

namespace TimeWeighted

/-- C10: the time-weighted retriever scores a candidate as its semantic
similarity plus (1 - decay rate) raised to the hours passed since the
document was last accessed through the retriever (its creation hour plays
no role in the score); a document returned by a retrieval has its
last-accessed hour refreshed to the current hour in the new retriever
state; and with a decay rate of zero the recency term is the constant one,
so the ranking coincides with the pure vector-similarity ranking. -/
theorem time_weighted_scoring (simf : Nat → ℚ) (decayRate : ℚ)
    (now k : Nat) (docs : List MemDoc) :
    (∀ i ca1 ca2 la,
      score simf decayRate now (MemDoc.mk i ca1 la) =
        simf i + (1 - decayRate) ^ (now - la) ∧
      score simf decayRate now (MemDoc.mk i ca1 la) =
        score simf decayRate now (MemDoc.mk i ca2 la)) ∧
    (∀ d2 ∈ (retrieve simf decayRate now k docs).2,
      ((retrieve simf decayRate now k docs).1.any
          (fun r => r.docId == d2.docId)) = true →
        d2.lastAccessed = now) ∧
    rankDocs simf 0 now docs = rankBySim simf docs := by
  refine ⟨fun i ca1 ca2 la => ⟨rfl, rfl⟩, ?_, ?_⟩
  · intro d2 hd2 hany
    have hmap : (retrieve simf decayRate now k docs).2 =
        docs.map (fun d =>
          if ((rankDocs simf decayRate now docs).take k).any
              (fun r => r.docId == d.docId) then
            { d with lastAccessed := now }
          else d) := rfl
    have hfst : (retrieve simf decayRate now k docs).1 =
        (rankDocs simf decayRate now docs).take k := rfl
    rw [hmap] at hd2
    rcases List.mem_map.mp hd2 with ⟨d0, hd0, hval⟩
    by_cases hcond : ((rankDocs simf decayRate now docs).take k).any
        (fun r => r.docId == d0.docId) = true
    · rw [if_pos hcond] at hval
      rw [← hval]
    · rw [if_neg hcond] at hval
      exfalso
      apply hcond
      rw [hfst] at hany
      rw [hval]
      exact hany
  · have hfun : (fun a b : MemDoc =>
        decide (score simf 0 now b ≤ score simf 0 now a)) =
        (fun a b : MemDoc => decide (simf b.docId ≤ simf a.docId)) := by
      funext a b
      rw [decide_eq_decide]
      have hs : ∀ d : MemDoc, score simf 0 now d = simf d.docId + 1 := by
        intro d
        simp [score]
      rw [hs a, hs b]
      exact add_le_add_iff_right 1
    unfold rankDocs rankBySim
    rw [hfun]

theorem time_weighted_scoring_witness :
    score (fun _ => (2 : ℚ)) 0 5 (MemDoc.mk 0 0 1) = 3 ∧
    rankDocs (fun i => if i == 0 then (2 : ℚ) else 7) 0 5
        [MemDoc.mk 0 0 1, MemDoc.mk 1 0 4] =
      rankBySim (fun i => if i == 0 then (2 : ℚ) else 7)
        [MemDoc.mk 0 0 1, MemDoc.mk 1 0 4] := by
  constructor
  · have h := ((time_weighted_scoring (fun _ => (2 : ℚ)) 0 5 1
      [MemDoc.mk 0 0 1]).1 0 0 0 1).1
    rw [h]
    norm_num
  · exact (time_weighted_scoring (fun i => if i == 0 then (2 : ℚ) else 7)
      0 5 1 [MemDoc.mk 0 0 1, MemDoc.mk 1 0 4]).2.2

end TimeWeighted
